import Mathlib

/-!
Verification of the streak engine of the greenhabit backend
(source file: src/streak_system.py).

Shallow embedding conventions:
* A calendar date is an integer day number (rata die); subtracting two
  dates gives the day difference that the Python code computes via
  `(a - b).days`.  The helper `rataDie` converts a proleptic-Gregorian
  calendar date to its day number, so concrete dates from the spec
  (for example 2026-02-16) can be written down exactly.
* The per-user MongoDB state is the structure `DB`: the append-only
  `habit_completions` ledger becomes the list `completions` (dates of
  the one user under consideration, in insertion order; the unique
  index on (userId, completion_local_date) becomes a membership test),
  and the `user_profiles` document becomes `profile : Option Profile`.
* `datetime.utcnow()` projected into the claimed timezone is passed in
  explicitly as the parameter `sut` (server view of the user's local
  "today"), and `date.today()` used by the full recalculation is the
  parameter `st`.  The code under test never inspects the timezone
  beyond this projection.
* Anti-cheat validation is modelled after the parse/timezone steps
  succeeded (well-formed date, known zone): the remaining checks are
  the future/backdate window, which is what the claims are about.
-/

namespace Streak

-- ======================== CONSTANTS ========================

def MAX_FUTURE_DAYS : Int := 1
def MAX_BACKDATE_DAYS : Int := 7
def MAX_BATCH_SIZE : Nat := 30

-- ======================== CALENDAR DATES ========================

/-- Cumulative day counts before each month in a non-leap year. -/
def daysBeforeMonth (m : Nat) : Nat :=
  [0, 31, 59, 90, 120, 151, 181, 212, 243, 273, 304, 334].getD (m - 1) 0

def isLeapYear (y : Nat) : Bool :=
  y % 4 == 0 && (y % 100 != 0 || y % 400 == 0)

/-- Day number of a proleptic-Gregorian date (1-based years, months, days):
day 1 is 0001-01-01.  Only used to name concrete dates from the spec. -/
def rataDie (y m d : Nat) : Int :=
  (365 * (y - 1) + (y - 1) / 4 - (y - 1) / 100 + (y - 1) / 400
    + daysBeforeMonth m + (if isLeapYear y && m > 2 then 1 else 0) + d : Int)

-- ======================== DATA MODEL ========================

/-- Stored streak fields of a user_profiles document. -/
structure Profile where
  currentStreak : Nat
  longestStreak : Nat
  lastCompletedLocalDate : Option Int
deriving DecidableEq, Repr

/-- Dictionary returned by record_completion / _update_streak. -/
structure Result where
  currentStreak : Nat
  longestStreak : Nat
  lastCompletedDate : Option Int
  isDuplicate : Bool
deriving DecidableEq, Repr

/-- Dictionary returned by calculate_streak_from_completions. -/
structure StreakInfo where
  currentStreak : Nat
  longestStreak : Nat
  lastCompletedDate : Option Int
deriving DecidableEq, Repr

/-- Per-user database state: the habit_completions ledger (dates in
insertion order, unique by the store index) and the user_profiles
document (absent until first created). -/
structure DB where
  completions : List Int
  profile : Option Profile
deriving DecidableEq, Repr

def dbEmpty : DB := ⟨[], none⟩

/-- Reading the profile with the defaults the code uses:
profile.get("currentStreak", 0), profile.get("longestStreak", 0),
profile.get("lastCompletedLocalDate"). -/
def profileView (db : DB) : Profile :=
  db.profile.getD ⟨0, 0, none⟩

-- ======================== ANTI-CHEAT VALIDATION ========================

inductive ValidationError where
  | FutureDateRejected
  | BackdateRejected
deriving DecidableEq, Repr

/-- Model of _validate_completion after the date parsed and the timezone
resolved: d is the claimed local date, sut the server UTC instant
projected into the claimed timezone (server_in_user_tz.date()). -/
def validateCompletion (d sut : Int) : Option ValidationError :=
  if d - sut > MAX_FUTURE_DAYS then some .FutureDateRejected
  else if d - sut < -MAX_BACKDATE_DAYS then some .BackdateRejected
  else none

-- ======================== FULL RECALCULATION ========================

/-- The linear scan of calculate_streak_from_completions that computes
longest_streak: prev is dates[i-1], longest/temp the accumulators. -/
def longestScan : Int → Nat → Nat → List Int → Nat
  | _, longest, temp, [] => max longest temp
  | prev, longest, temp, d :: rest =>
    if d - prev = 1 then longestScan d longest (temp + 1) rest
    else longestScan d (max longest temp) 1 rest

/-- The backward walk of calculate_streak_from_completions counting
consecutive-day steps; next is dates[i+1], the list is the remaining
dates in descending order. -/
def backCount : Int → List Int → Nat
  | _, [] => 0
  | next, d :: rest => if next - d = 1 then 1 + backCount d rest else 0

/-- Model of sorted(set(dates)) over the parsed completion dates
(a stable sort of the deduplicated dates). -/
def sortedDates (completions : List Int) : List Int :=
  List.insertionSort (· ≤ ·) completions.dedup

/-- Model of calculate_streak_from_completions: a pure function of the
ledger and of date.today() (the parameter today). -/
def calculateStreakFromCompletions (completions : List Int) (today : Int) :
    StreakInfo :=
  match sortedDates completions with
  | [] => ⟨0, 0, none⟩
  | d :: rest =>
    let longest := longestScan d 1 1 rest
    let current :=
      match (d :: rest).reverse with
      | [] => 0
      | m :: r => if today - m > 1 then 0 else 1 + backCount m r
    ⟨current, longest, (d :: rest).getLast?⟩

/-- Model of _recalculate_and_store: recompute from the ledger and write
the result into the profile.  The Mongo update_one has no upsert here,
so a missing profile stays missing while the returned dictionary still
carries the recomputed numbers. -/
def recalculateAndStore (db : DB) (st : Int) : DB × Result :=
  let info := calculateStreakFromCompletions db.completions st
  ({ db with
      profile := db.profile.map fun _ =>
        ⟨info.currentStreak, info.longestStreak, info.lastCompletedDate⟩ },
   ⟨info.currentStreak, info.longestStreak, info.lastCompletedDate, false⟩)

-- ======================== INCREMENTAL UPDATE ========================

/-- The optimistic-concurrency write at the end of _update_streak: the
update is filtered on lastCompletedLocalDate still being readLast; on a
mismatch (matched_count == 0) the code falls back to full
recalculation.  write is the state the write executes against. -/
def applyConditionalWrite (write : DB) (readLast : Option Int)
    (newStreak newLongest : Nat) (d st : Int) : DB × Result :=
  match write.profile with
  | some q =>
    if q.lastCompletedLocalDate = readLast then
      ({ write with profile := some ⟨newStreak, newLongest, some d⟩ },
       ⟨newStreak, newLongest, some d, false⟩)
    else recalculateAndStore write st
  | none => recalculateAndStore write st

/-- Model of _update_streak.  read is the state the initial find_one
observed, write the state the subsequent update_one runs against; a
sequential (race-free) call has read = write.  d is the new completion
date, st the server date used by a recalculation fallback. -/
def updateStreak (read write : DB) (d st : Int) : DB × Result :=
  match read.profile with
  | none =>
    ({ write with profile := some ⟨1, 1, some d⟩ },
     ⟨1, 1, some d, false⟩)
  | some p =>
    match p.lastCompletedLocalDate with
    | none =>
      applyConditionalWrite write none 1 (max p.longestStreak 1) d st
    | some last =>
      if d - last = 1 then
        applyConditionalWrite write (some last) (p.currentStreak + 1)
          (max p.longestStreak (p.currentStreak + 1)) d st
      else if d - last = 0 then
        applyConditionalWrite write (some last) p.currentStreak
          (max p.longestStreak p.currentStreak) d st
      else if d - last < 0 then
        recalculateAndStore write st
      else
        applyConditionalWrite write (some last) 1
          (max p.longestStreak 1) d st

-- ======================== RECORD COMPLETION ========================

/-- Model of record_completion: validate, attempt the unique insert
(duplicate means no mutation and isDuplicate = true with the submitted
date echoed back), else append to the ledger and update the streak.
sut is the server instant projected into the claimed timezone, st the
server date a recalculation would use. -/
def recordCompletion (db : DB) (d sut st : Int) :
    Except ValidationError (DB × Result) :=
  match validateCompletion d sut with
  | some e => .error e
  | none =>
    if d ∈ db.completions then
      .ok (db, ⟨(profileView db).currentStreak,
                (profileView db).longestStreak, some d, true⟩)
    else
      let db' := { db with completions := db.completions ++ [d] }
      .ok (updateStreak db' db' d st)

/-- The state after a record_completion call (a rejected claim leaves
the state untouched). -/
def recordDB (db : DB) (d sut st : Int) : DB :=
  match recordCompletion db d sut st with
  | .error _ => db
  | .ok (db', _) => db'

/-- One replay step of the ledger through the incremental engine: the
post-validation body of record_completion (unique-index duplicate guard,
then insert and _update_streak). -/
def replayStep (db : DB) (d st : Int) : DB :=
  if d ∈ db.completions then db
  else
    let db' := { db with completions := db.completions ++ [d] }
    (updateStreak db' db' d st).1

/-- Replaying a list of dates one at a time through replayStep. -/
def replay (st : Int) (db : DB) (ds : List Int) : DB :=
  ds.foldl (fun db d => replayStep db d st) db

-- ======================== OFFLINE BATCH SYNC ========================

/-- One element of the completions argument of
validate_offline_completions (the audit-only fields are dropped;
completionLocalDate is None when the key is missing). -/
structure BatchItem where
  taskId : String
  completionLocalDate : Option Int
deriving DecidableEq, Repr

/-- Sort key of an optional date: a missing date (the "" default of
c.get("completionLocalDate", "")) sorts before every real date. -/
def keyOf : Option Int → WithBot Int
  | none => ⊥
  | some d => (d : WithBot Int)

/-- Comparison of optional dates by sort key. -/
def optLE (a b : Option Int) : Prop :=
  keyOf a ≤ keyOf b

/-- Sort key of the batch: c.get("completionLocalDate", ""), with a
missing date sorting before every real one. -/
def itemKey (it : BatchItem) : WithBot Int :=
  keyOf it.completionLocalDate

/-- Comparison of batch items by sort key. -/
def itemRel (a b : BatchItem) : Prop :=
  itemKey a ≤ itemKey b

instance : DecidableRel itemRel := fun a b =>
  inferInstanceAs (Decidable (itemKey a ≤ itemKey b))

instance : IsTotal BatchItem itemRel :=
  ⟨fun a b => le_total (itemKey a) (itemKey b)⟩

instance : IsTrans BatchItem itemRel :=
  ⟨fun _ _ _ hab hbc => le_trans hab hbc⟩

/-- Accumulator of the sequential replay loop of
validate_offline_completions. -/
structure BatchAcc where
  db : DB
  results : List (String × String)
  totalNew : Nat
  totalDuplicate : Nat
  totalRejected : Nat
  finalStreak : Option Result
deriving DecidableEq, Repr

/-- One iteration of the replay loop: missing date is rejected, a
validation failure is rejected, otherwise the item goes through
record_completion and is classified as duplicate or recorded. -/
def processItem (sut st : Int) (acc : BatchAcc) (it : BatchItem) : BatchAcc :=
  match it.completionLocalDate with
  | none =>
    { acc with
        results := acc.results ++ [(it.taskId, "rejected")],
        totalRejected := acc.totalRejected + 1 }
  | some d =>
    match recordCompletion acc.db d sut st with
    | .error _ =>
      { acc with
          results := acc.results ++ [(it.taskId, "rejected")],
          totalRejected := acc.totalRejected + 1 }
    | .ok (db', r) =>
      if r.isDuplicate then
        { acc with
            db := db',
            results := acc.results ++ [(it.taskId, "duplicate")],
            totalDuplicate := acc.totalDuplicate + 1,
            finalStreak := some r }
      else
        { acc with
            db := db',
            results := acc.results ++ [(it.taskId, "recorded")],
            totalNew := acc.totalNew + 1,
            finalStreak := some r }

/-- Dictionary returned by validate_offline_completions; finalStreak is
none exactly on the batch-too-large early return, whose dictionary has
no finalStreak key. -/
structure BatchOutcome where
  finalStreak : Option Result
  results : List (String × String)
  totalProcessed : Nat
  totalNew : Nat
  totalDuplicate : Nat
  totalRejected : Nat
  sizeError : Bool
deriving DecidableEq, Repr

/-- Model of validate_offline_completions: size guard, ascending sort by
claimed local date, then sequential replay through record_completion. -/
def validateOfflineCompletions (db : DB) (completions : List BatchItem)
    (sut st : Int) : DB × BatchOutcome :=
  if completions.length > MAX_BATCH_SIZE then
    (db, ⟨none, [], 0, 0, 0, 0, true⟩)
  else
    let sorted := List.insertionSort itemRel completions
    let acc := sorted.foldl (processItem sut st) ⟨db, [], 0, 0, 0, none⟩
    let finalStreak :=
      match acc.finalStreak with
      | some r => r
      | none =>
        ⟨(profileView acc.db).currentStreak,
         (profileView acc.db).longestStreak,
         (profileView acc.db).lastCompletedLocalDate, true⟩
    (acc.db,
     ⟨some finalStreak, acc.results, sorted.length, acc.totalNew,
      acc.totalDuplicate, acc.totalRejected, false⟩)

/-- The state after a validate_offline_completions call. -/
def syncDB (db : DB) (completions : List BatchItem) (sut st : Int) : DB :=
  (validateOfflineCompletions db completions sut st).1

-- ======================== REACHABLE STATES ========================

/-- User states reachable from the empty store by record_completion and
validate_offline_completions calls, each at an arbitrary server clock. -/
inductive Reachable : DB → Prop where
  | base : Reachable dbEmpty
  | record {db : DB} (h : Reachable db) (d sut st : Int) :
      Reachable (recordDB db d sut st)
  | sync {db : DB} (h : Reachable db) (items : List BatchItem)
      (sut st : Int) : Reachable (syncDB db items sut st)

-- ======================== SPEC-SIDE DEFINITIONS ========================

/-- Spec-side definition, following the words of the spec: the length of
the longest run of calendar-consecutive dates among a set of dates (the
greatest n such that some n consecutive calendar days all belong to the
set). -/
def specLongestRun (S : Finset Int) : Nat :=
  Nat.findGreatest (fun n => n = 0 ∨ ∃ a ∈ S, ∀ j < n, a + (j : Int) ∈ S)
    S.card

/-- Spec-side definition, following the words of the spec: the length of
the consecutive-day run ending at the date d (the greatest k such that
d, d-1, ..., d-k+1 all belong to the set). -/
def specRunEndingAt (S : Finset Int) (d : Int) : Nat :=
  Nat.findGreatest (fun k => ∀ j < k, d - (j : Int) ∈ S) S.card

-- ======================== PROOF-SUPPORT DEFINITIONS ========================

/-- Length of the consecutive run starting at prev and continuing into
the list (prev itself counts as 1). -/
def headRun : Int → List Int → Nat
  | _, [] => 1
  | prev, d :: rest => if d - prev = 1 then 1 + headRun d rest else 1

/-- Maximum, over all positions of the list, of the consecutive run
starting there. -/
def maxRun : List Int → Nat
  | [] => 0
  | d :: rest => max (maxRun rest) (headRun d rest)

/-- Left-to-right computation of the length of the consecutive run at
the end of a list; prev is the previous element, cur the run length so
far. -/
def tailRun : Int → Nat → List Int → Nat
  | _, cur, [] => cur
  | prev, cur, d :: rest =>
    if d - prev = 1 then tailRun d (cur + 1) rest else tailRun d 1 rest

/-- The backward walk of the recalculation engine, packaged as a
function of the ascending list: the length of the consecutive run at
the end of the list. -/
def walkCur (ds : List Int) : Nat :=
  match ds.reverse with
  | [] => 0
  | m :: r => 1 + backCount m r

/-- One incremental advance of the aggregate by a strictly later date,
as _update_streak performs it on the non-backfill paths. -/
def stepIncr (p : Profile) (d : Int) : Profile :=
  match p.lastCompletedLocalDate with
  | some l =>
    if d - l = 1 then
      ⟨p.currentStreak + 1, max p.longestStreak (p.currentStreak + 1), some d⟩
    else ⟨1, max p.longestStreak 1, some d⟩
  | none => ⟨1, max p.longestStreak 1, some d⟩

/-- Iterated incremental advance. -/
def foldIncr (p : Profile) (ds : List Int) : Profile := ds.foldl stepIncr p

/-- The n calendar-consecutive dates a, a+1, ..., a+n-1. -/
def consecList : Int → Nat → List Int
  | _, 0 => []
  | a, n + 1 => a :: consecList (a + 1) n

/-- The stored longest streak of a state, 0 when no profile exists. -/
def longestOfDB (db : DB) : Nat := (profileView db).longestStreak

/-- Strengthened invariant carried through the reachability induction:
the stored aggregate never exceeds what the completion ledger supports. -/
def Inv (db : DB) : Prop :=
  ∀ p, db.profile = some p →
    p.currentStreak ≤ p.longestStreak ∧
    p.longestStreak ≤ specLongestRun db.completions.toFinset ∧
    ∀ l, p.lastCompletedLocalDate = some l →
      p.currentStreak ≤ specRunEndingAt db.completions.toFinset l

/-- State transition of one batch item restricted to the database: a
missing date or a rejected claim leaves the state unchanged, otherwise
the item goes through record_completion. -/
def recordDateDB (sut st : Int) (db : DB) (od : Option Int) : DB :=
  match od with
  | none => db
  | some d => recordDB db d sut st

/-- Sequentially recording a list of optional dates. -/
def replayKeyDates (db : DB) (l : List (Option Int)) (sut st : Int) : DB :=
  l.foldl (recordDateDB sut st) db

end Streak

-- ======================== HELPER LEMMAS ========================

namespace Streak

theorem recalculateAndStore_completions (db : DB) (st : Int) :
    (recalculateAndStore db st).1.completions = db.completions := rfl

theorem applyConditionalWrite_completions (w : DB) (rl : Option Int)
    (ns nl : Nat) (d st : Int) :
    (applyConditionalWrite w rl ns nl d st).1.completions = w.completions := by
  unfold applyConditionalWrite
  rcases hw : w.profile with _ | q
  · simp [recalculateAndStore_completions]
  · by_cases h : q.lastCompletedLocalDate = rl <;>
      simp [h, recalculateAndStore_completions]

theorem updateStreak_completions (read write : DB) (d st : Int) :
    (updateStreak read write d st).1.completions = write.completions := by
  unfold updateStreak
  rcases hr : read.profile with _ | p
  · rfl
  · simp only []
    rcases hl : p.lastCompletedLocalDate with _ | l
    · simp [applyConditionalWrite_completions]
    · simp only [hl]
      split_ifs <;>
        simp [applyConditionalWrite_completions, recalculateAndStore_completions]

end Streak

namespace Streak

-- ======================== C3 ========================

/-- C3: the incremental streak advance follows exactly the claimed
cases: no aggregate creates one with currentStreak = longestStreak = 1
and last date = the new date; otherwise with delta = newDate - lastDate,
delta = 1 increments, delta = 0 keeps the streak, delta > 1 resets the
streak to 1 (in each case longestStreak becomes max of itself and the
new streak), delta < 0 is exactly the full recalculation; and a
mismatched conditional write is again exactly the full recalculation,
with no retry of the increment. -/
theorem update_streak_case_analysis (read write db : DB) (d st : Int) :
    (read.profile = none →
      updateStreak read write d st =
        ({ write with profile := some ⟨1, 1, some d⟩ },
         ⟨1, 1, some d, false⟩)) ∧
    (∀ p l, db.profile = some p → p.lastCompletedLocalDate = some l →
      (d - l = 1 →
        updateStreak db db d st =
          ({ db with profile := some ⟨p.currentStreak + 1,
              max p.longestStreak (p.currentStreak + 1), some d⟩ },
           ⟨p.currentStreak + 1, max p.longestStreak (p.currentStreak + 1),
            some d, false⟩)) ∧
      (d - l = 0 →
        updateStreak db db d st =
          ({ db with profile := some ⟨p.currentStreak,
              max p.longestStreak p.currentStreak, some d⟩ },
           ⟨p.currentStreak, max p.longestStreak p.currentStreak,
            some d, false⟩)) ∧
      (d - l > 1 →
        updateStreak db db d st =
          ({ db with profile := some ⟨1, max p.longestStreak 1, some d⟩ },
           ⟨1, max p.longestStreak 1, some d, false⟩)) ∧
      (d - l < 0 →
        updateStreak db db d st = recalculateAndStore db st)) ∧
    (∀ p, read.profile = some p →
      (∀ q, write.profile = some q →
        q.lastCompletedLocalDate ≠ p.lastCompletedLocalDate) →
      updateStreak read write d st = recalculateAndStore write st) := by
  refine ⟨?_, ?_, ?_⟩
  · intro h
    unfold updateStreak
    rw [h]
  · intro p l hp hl
    refine ⟨?_, ?_, ?_, ?_⟩ <;> intro hcase
    · unfold updateStreak applyConditionalWrite
      simp only [hp, hl]
      rw [if_pos hcase]
      simp
    · unfold updateStreak applyConditionalWrite
      simp only [hp, hl]
      rw [if_neg (by omega), if_pos hcase]
      simp
    · unfold updateStreak applyConditionalWrite
      simp only [hp, hl]
      rw [if_neg (by omega), if_neg (by omega), if_neg (by omega)]
      simp
    · unfold updateStreak
      simp only [hp, hl]
      rw [if_neg (by omega), if_neg (by omega), if_pos (by omega)]
  · intro p hp hmis
    rcases hl : p.lastCompletedLocalDate with _ | l
    · rcases hw : write.profile with _ | q
      · simp [updateStreak, applyConditionalWrite, hp, hl, hw]
      · have hne := hmis q hw
        rw [hl] at hne
        simp [updateStreak, applyConditionalWrite, hp, hl, hw, hne]
    · rcases hw : write.profile with _ | q
      · simp only [updateStreak, applyConditionalWrite, hp, hl, hw]
        split_ifs <;> rfl
      · have hne := hmis q hw
        rw [hl] at hne
        simp only [updateStreak, applyConditionalWrite, hp, hl, hw, hne,
          if_neg hne]
        split_ifs <;> first | rfl | (exfalso ; assumption)

/-- Witness for C3: the creation case at a concrete input. -/
theorem update_streak_case_analysis_witness :
    updateStreak dbEmpty dbEmpty 5 0 =
      ({ dbEmpty with profile := some ⟨1, 1, some 5⟩ },
       ⟨1, 1, some 5, false⟩) :=
  (update_streak_case_analysis dbEmpty dbEmpty dbEmpty 5 0).1 rfl

end Streak

namespace Streak

-- ======================== C6 ========================

/-- C6: for every well-formed date and known timezone, validation
rejects the claim iff the day-offset between claim and the server's
projected local date exceeds 1 day into the future (FutureDateRejected)
or 7 days into the past (BackdateRejected); with server-believed today
2026-02-16, claims of 2026-02-18 and 2026-02-08 are rejected while
2026-02-15 and 2026-02-17 are accepted. -/
theorem validation_boundary :
    (∀ d sut : Int,
      (validateCompletion d sut ≠ none ↔ d - sut > 1 ∨ d - sut < -7) ∧
      (d - sut > 1 →
        validateCompletion d sut = some .FutureDateRejected) ∧
      (d - sut < -7 →
        validateCompletion d sut = some .BackdateRejected)) ∧
    validateCompletion (rataDie 2026 2 18) (rataDie 2026 2 16) =
      some .FutureDateRejected ∧
    validateCompletion (rataDie 2026 2 8) (rataDie 2026 2 16) =
      some .BackdateRejected ∧
    validateCompletion (rataDie 2026 2 15) (rataDie 2026 2 16) = none ∧
    validateCompletion (rataDie 2026 2 17) (rataDie 2026 2 16) = none := by
  refine ⟨fun d sut => ⟨?_, ?_, ?_⟩, by decide, by decide, by decide, by decide⟩
  · unfold validateCompletion MAX_FUTURE_DAYS MAX_BACKDATE_DAYS
    split_ifs with h1 h2 <;> simp <;> omega
  · intro h
    unfold validateCompletion MAX_FUTURE_DAYS
    rw [if_pos h]
  · intro h
    unfold validateCompletion MAX_FUTURE_DAYS MAX_BACKDATE_DAYS
    rw [if_neg (by omega), if_pos (by omega)]

/-- Witness for C6 at a concrete offset. -/
theorem validation_boundary_witness :
    validateCompletion 10 5 = some ValidationError.FutureDateRejected :=
  ((validation_boundary.1 10 5).2.1 (by decide))

-- ======================== C8 ========================

/-- C8: a batch of more than MAX_BATCH_SIZE = 30 items is rejected
wholesale: no item is processed, no state is mutated, and the outcome
reports zero recorded, zero duplicate and zero rejected items. -/
theorem oversize_batch_rejected_wholesale (db : DB)
    (items : List BatchItem) (sut st : Int)
    (h : items.length > MAX_BATCH_SIZE) :
    validateOfflineCompletions db items sut st =
      (db, ⟨none, [], 0, 0, 0, 0, true⟩) := by
  unfold validateOfflineCompletions
  rw [if_pos h]

/-- Witness for C8: a batch of 31 items is rejected with zero recorded
and zero duplicates. -/
theorem oversize_batch_rejected_wholesale_witness :
    validateOfflineCompletions dbEmpty
      (List.replicate 31 (⟨"t", none⟩ : BatchItem)) 0 0 =
      (dbEmpty, ⟨none, [], 0, 0, 0, 0, true⟩) :=
  oversize_batch_rejected_wholesale dbEmpty _ 0 0 (by decide)

-- ======================== C10 ========================

/-- C10: on the duplicate path record_completion echoes the submitted
localDate back as lastCompletedDate rather than the stored
lastCompletedLocalDate, so when the stored last date is later than the
duplicated date the returned date is strictly earlier than (and in
particular different from) the stored one. -/
theorem duplicate_returns_submitted_date (db : DB) (d sut st l : Int)
    (p : Profile) (hv : validateCompletion d sut = none)
    (hdup : d ∈ db.completions) (hp : db.profile = some p)
    (hl : p.lastCompletedLocalDate = some l) (hlt : d < l) :
    recordCompletion db d sut st =
      .ok (db, ⟨p.currentStreak, p.longestStreak, some d, true⟩) ∧
    (some d : Option Int) ≠ p.lastCompletedLocalDate ∧
    ∀ x : Int, (some d : Option Int) = some x → x < l := by
  refine ⟨?_, ?_, ?_⟩
  · simp only [recordCompletion, hv, if_pos hdup, profileView, hp,
      Option.getD_some]
  · simp only [hl, ne_eq, Option.some.injEq]
    omega
  · intro x hx
    obtain rfl : d = x := by simpa using hx
    exact hlt

/-- Witness for C10 at a concrete state whose stored last date is later
than the duplicated date. -/
theorem duplicate_returns_submitted_date_witness :
    recordCompletion (⟨[3, 4], some ⟨2, 2, some 4⟩⟩ : DB) 3 4 0 =
      .ok (⟨[3, 4], some ⟨2, 2, some 4⟩⟩, ⟨2, 2, some 3, true⟩) ∧
    (some 3 : Option Int) ≠
      (Profile.mk 2 2 (some 4)).lastCompletedLocalDate ∧
    ∀ x : Int, (some 3 : Option Int) = some x → x < 4 := by
  exact duplicate_returns_submitted_date _ 3 4 0 4 ⟨2, 2, some 4⟩
    (by decide) (by decide) rfl rfl (by decide)

-- ======================== C5 ========================

/-- C5: record_completion is idempotent per (userId, localDate): a
duplicate insert returns the existing aggregate numbers with
isDuplicate = true and mutates nothing, and a second call with
identical arguments leaves the state exactly as after the first. -/
theorem record_completion_idempotent (db : DB) (d sut st : Int) :
    (validateCompletion d sut = none → d ∈ db.completions →
      recordCompletion db d sut st =
        .ok (db, ⟨(profileView db).currentStreak,
                  (profileView db).longestStreak, some d, true⟩)) ∧
    (∀ db' r', recordCompletion db d sut st = .ok (db', r') →
      recordCompletion db' d sut st =
        .ok (db', ⟨(profileView db').currentStreak,
                   (profileView db').longestStreak, some d, true⟩)) := by
  constructor
  · intro hv hdup
    simp only [recordCompletion, hv, if_pos hdup]
  · intro db' r' hok
    rcases hv : validateCompletion d sut with _ | e
    · by_cases hd : d ∈ db.completions
      · simp only [recordCompletion, hv, if_pos hd, Except.ok.injEq,
          Prod.mk.injEq] at hok
        obtain ⟨h1, _⟩ := hok
        subst h1
        simp only [recordCompletion, hv, if_pos hd]
      · simp only [recordCompletion, hv, if_neg hd, Except.ok.injEq] at hok
        have hdb : db' = (updateStreak
            { db with completions := db.completions ++ [d] }
            { db with completions := db.completions ++ [d] } d st).1 := by
          rw [hok]
        have hmem : d ∈ db'.completions := by
          rw [hdb, updateStreak_completions]
          simp
        simp only [recordCompletion, hv, if_pos hmem]
    · rw [recordCompletion, hv] at hok
      exact absurd hok (by simp)

/-- Witness for C5: a second identical call on the state left by a
first call is a pure duplicate. -/
theorem record_completion_idempotent_witness :
    recordCompletion (⟨[5], some ⟨1, 1, some 5⟩⟩ : DB) 5 5 0 =
      .ok (⟨[5], some ⟨1, 1, some 5⟩⟩, ⟨1, 1, some 5, true⟩) := by
  exact (record_completion_idempotent dbEmpty 5 5 0).2
    ⟨[5], some ⟨1, 1, some 5⟩⟩ ⟨1, 1, some 5, false⟩ rfl

-- ======================== C1 counterexample ========================

/-- Counterexample to C1 as stated: for the completion-date set
consisting of day 0 alone, with the recalculation running at server
date 2, the full recalculation reports currentStreak = 0 (the streak is
already broken today) while the aggregate built by replaying the same
set reports currentStreak = 1; they do not agree exactly. -/
theorem replay_recompute_disagree :
    (calculateStreakFromCompletions
      (replay 2 dbEmpty [0]).completions 2).currentStreak = 0 ∧
    (profileView (replay 2 dbEmpty [0])).currentStreak = 1 ∧
    (calculateStreakFromCompletions
        (replay 2 dbEmpty [0]).completions 2).currentStreak ≠
      (profileView (replay 2 dbEmpty [0])).currentStreak := by
  refine ⟨?_, rfl, ?_⟩ <;> decide

end Streak

namespace Streak

-- ======================== SORTED DATES FACTS ========================

theorem sortedDates_sorted (l : List Int) :
    (sortedDates l).Sorted (· ≤ ·) :=
  List.sorted_insertionSort _ _

theorem sortedDates_nodup (l : List Int) : (sortedDates l).Nodup :=
  ((List.perm_insertionSort _ _).nodup_iff).2 (List.nodup_dedup l)

theorem sortedDates_sorted_lt (l : List Int) :
    (sortedDates l).Sorted (· < ·) :=
  (sortedDates_sorted l).lt_of_le (sortedDates_nodup l)

theorem mem_sortedDates {l : List Int} {a : Int} :
    a ∈ sortedDates l ↔ a ∈ l :=
  (List.perm_insertionSort _ _).mem_iff.trans List.mem_dedup

theorem sortedDates_length (l : List Int) :
    (sortedDates l).length = l.toFinset.card := by
  rw [List.card_toFinset]
  exact (List.perm_insertionSort _ _).length_eq

theorem sortedDates_eq {l ds : List Int} (hnd : ds.Nodup)
    (hs : ds.Sorted (· ≤ ·)) (hm : ∀ a, a ∈ ds ↔ a ∈ l) :
    sortedDates l = ds := by
  refine List.eq_of_perm_of_sorted ?_ (sortedDates_sorted l) hs
  rw [List.perm_ext_iff_of_nodup (sortedDates_nodup l) hnd]
  intro a
  rw [mem_sortedDates]
  exact (hm a).symm

theorem sorted_le_getLast :
    ∀ (l : List Int), l.Sorted (· ≤ ·) → ∀ a ∈ l, ∀ (h : l ≠ []),
      a ≤ l.getLast h
  | [], _, a, ha, h => absurd rfl h
  | [b], hs, a, ha, h => by
    simp only [List.mem_singleton] at ha
    simp [ha]
  | b :: c :: t, hs, a, ha, h => by
    have hs' : (c :: t).Sorted (· ≤ ·) := hs.of_cons
    rw [List.getLast_cons (by simp)]
    rcases List.mem_cons.1 ha with rfl | ha'
    · calc a ≤ c := (List.sorted_cons.1 hs).1 c (by simp)
        _ ≤ (c :: t).getLast (by simp) :=
          sorted_le_getLast (c :: t) hs' c (by simp) (by simp)
    · exact sorted_le_getLast (c :: t) hs' a ha' (by simp)

-- ======================== SCAN FACTS ========================

theorem headRun_pos (prev : Int) (rest : List Int) :
    1 ≤ headRun prev rest := by
  cases rest with
  | nil => simp [headRun]
  | cons d r =>
    rw [headRun]
    split_ifs <;> omega

theorem headRun_le (prev : Int) (rest : List Int) :
    headRun prev rest ≤ rest.length + 1 := by
  induction rest generalizing prev with
  | nil => simp [headRun]
  | cons d r ih =>
    rw [headRun]
    split_ifs
    · have := ih d
      simp only [List.length_cons]
      omega
    · simp only [List.length_cons]
      omega

theorem maxRun_le_length (ds : List Int) : maxRun ds ≤ ds.length := by
  induction ds with
  | nil => simp [maxRun]
  | cons d r ih =>
    rw [maxRun]
    have := headRun_le d r
    simp only [List.length_cons]
    omega

theorem longestScan_eq (rest : List Int) :
    ∀ (prev : Int) (long temp : Nat), 1 ≤ temp →
      longestScan prev long temp rest =
        max long (max (temp - 1 + headRun prev rest) (maxRun rest)) := by
  induction rest with
  | nil =>
    intro prev long temp ht
    simp only [longestScan, headRun, maxRun]
    omega
  | cons d r ih =>
    intro prev long temp ht
    by_cases h : d - prev = 1
    · rw [longestScan, if_pos h, ih d long (temp + 1) (by omega),
        headRun, if_pos h, maxRun]
      omega
    · rw [longestScan, if_neg h, ih d (max long temp) 1 le_rfl,
        headRun, if_neg h, maxRun]
      omega

end Streak

namespace Streak

theorem headRun_mem :
    ∀ (rest : List Int) (prev : Int) (j : Nat), j < headRun prev rest →
      prev + (j : Int) ∈ prev :: rest
  | [], prev, j, hj => by
    simp only [headRun] at hj
    have hj0 : j = 0 := by omega
    subst hj0
    simp
  | d :: r, prev, j, hj => by
    rw [headRun] at hj
    split_ifs at hj with h
    · cases j with
      | zero => simp
      | succ k =>
        have hk : k < headRun d r := by omega
        have hmem := headRun_mem r d k hk
        have heq : prev + ((k + 1 : Nat) : Int) = d + (k : Int) := by
          push_cast
          omega
        rw [heq]
        exact List.mem_cons_of_mem prev hmem
    · have hj0 : j = 0 := by omega
      subst hj0
      simp

theorem maxRun_spec :
    ∀ ds : List Int, maxRun ds = 0 ∨
      ∃ a ∈ ds, ∀ j < maxRun ds, a + (j : Int) ∈ ds
  | [] => Or.inl rfl
  | d :: r => by
    right
    rw [maxRun]
    rcases le_total (maxRun r) (headRun d r) with h | h
    · refine ⟨d, by simp, fun j hj => ?_⟩
      rw [Nat.max_eq_right h] at hj
      exact headRun_mem r d j hj
    · rcases maxRun_spec r with h0 | ⟨a, ha, hrun⟩
      · exfalso
        have := headRun_pos d r
        omega
      · refine ⟨a, by simp [ha], fun j hj => ?_⟩
        rw [Nat.max_eq_left h] at hj
        exact List.mem_cons_of_mem d (hrun j hj)

theorem le_headRun_of_run :
    ∀ (rest : List Int) (prev : Int), (prev :: rest).Sorted (· < ·) →
      ∀ m : Nat, (∀ j < m, prev + (j : Int) ∈ prev :: rest) →
      m ≤ headRun prev rest
  | [], prev, _, m, hm => by
    by_contra hcon
    push_neg at hcon
    simp only [headRun] at hcon
    have hmem := hm 1 (by omega)
    simp only [List.mem_singleton] at hmem
    omega
  | d :: r, prev, hs, m, hm => by
    have hlt : ∀ x ∈ d :: r, prev < x := (List.sorted_cons.1 hs).1
    have hs' : (d :: r).Sorted (· < ·) := (List.sorted_cons.1 hs).2
    by_cases h : d - prev = 1
    · rw [headRun, if_pos h]
      rcases Nat.eq_zero_or_pos m with rfl | hmpos
      · omega
      · have hsub : ∀ j < m - 1, d + (j : Int) ∈ d :: r := by
          intro j hj
          have hmem := hm (j + 1) (by omega)
          have heq : prev + ((j + 1 : Nat) : Int) = d + (j : Int) := by
            push_cast
            omega
          rw [heq] at hmem
          rcases List.mem_cons.1 hmem with he | hmem'
          · exfalso
            have hd := hlt d (by simp)
            have hj0 : (0 : Int) ≤ (j : Int) := Int.natCast_nonneg j
            omega
          · exact hmem'
        have := le_headRun_of_run r d hs' (m - 1) hsub
        omega
    · rw [headRun, if_neg h]
      by_contra hcon
      push_neg at hcon
      have hmem := hm 1 (by omega)
      have h1 : prev + (1 : Int) ∈ prev :: d :: r := by
        have heq : prev + ((1 : Nat) : Int) = prev + 1 := by push_cast; ring
        rw [heq] at hmem
        exact hmem
      rcases List.mem_cons.1 h1 with he | h2
      · omega
      · rcases List.mem_cons.1 h2 with he | h3
        · omega
        · have hd := hlt d (by simp)
          have hx := (List.sorted_cons.1 hs').1 _ h3
          omega

theorem le_maxRun_of_run :
    ∀ (ds : List Int), ds.Sorted (· < ·) →
      ∀ (m : Nat) (a : Int), (∀ j < m, a + (j : Int) ∈ ds) → m ≤ maxRun ds
  | [], _, m, a, hm => by
    rcases Nat.eq_zero_or_pos m with rfl | hm0
    · simp [maxRun]
    · have := hm 0 hm0
      simp at this
  | d :: r, hs, m, a, hm => by
    rcases Nat.eq_zero_or_pos m with rfl | hm0
    · exact Nat.zero_le _
    · have ha : a ∈ d :: r := by
        have := hm 0 hm0
        simpa using this
      rw [maxRun]
      by_cases hd : a = d
      · subst hd
        have := le_headRun_of_run r a hs m hm
        omega
      · have ha' : a ∈ r := by
          rcases List.mem_cons.1 ha with h | h
          · exact absurd h hd
          · exact h
        have hda : d < a := (List.sorted_cons.1 hs).1 a ha'
        have hsub : ∀ j < m, a + (j : Int) ∈ r := by
          intro j hj
          rcases List.mem_cons.1 (hm j hj) with he | h2
          · exfalso
            have hj0 : (0 : Int) ≤ (j : Int) := Int.natCast_nonneg j
            omega
          · exact h2
        have := le_maxRun_of_run r (List.sorted_cons.1 hs).2 m a hsub
        omega

theorem backCount_le (r : List Int) : ∀ m : Int, backCount m r ≤ r.length := by
  induction r with
  | nil => intro m; simp [backCount]
  | cons d t ih =>
    intro m
    rw [backCount]
    split_ifs
    · have := ih d
      simp only [List.length_cons]
      omega
    · simp

theorem backCount_mem :
    ∀ (r : List Int) (m : Int) (j : Nat), j < 1 + backCount m r →
      m - (j : Int) ∈ m :: r
  | [], m, j, hj => by
    simp only [backCount] at hj
    have hj0 : j = 0 := by omega
    subst hj0
    simp
  | d :: r, m, j, hj => by
    rw [backCount] at hj
    split_ifs at hj with h
    · cases j with
      | zero => simp
      | succ k =>
        have hk : k < 1 + backCount d r := by omega
        have hmem := backCount_mem r d k hk
        have heq : m - ((k + 1 : Nat) : Int) = d - (k : Int) := by
          push_cast
          omega
        rw [heq]
        exact List.mem_cons_of_mem m hmem
    · have hj0 : j = 0 := by omega
      subst hj0
      simp

theorem le_backCount_of_run :
    ∀ (r : List Int) (m : Int), (m :: r).Sorted (· > ·) →
      ∀ k : Nat, (∀ j < k, m - (j : Int) ∈ m :: r) → k ≤ 1 + backCount m r
  | [], m, _, k, hk => by
    by_contra hcon
    push_neg at hcon
    simp only [backCount] at hcon
    have hmem := hk 1 (by omega)
    have heq : m - ((1 : Nat) : Int) = m - 1 := by push_cast; ring
    rw [heq] at hmem
    simp only [List.mem_singleton] at hmem
    omega
  | d :: r, m, hs, k, hk => by
    have hgt : ∀ x ∈ d :: r, x < m := (List.sorted_cons.1 hs).1
    have hs' : (d :: r).Sorted (· > ·) := (List.sorted_cons.1 hs).2
    by_cases h : m - d = 1
    · rw [backCount, if_pos h]
      by_cases hk1 : k ≤ 1
      · omega
      · have hsub : ∀ j < k - 1, d - (j : Int) ∈ d :: r := by
          intro j hj
          have hmem := hk (j + 1) (by omega)
          have heq : m - ((j + 1 : Nat) : Int) = d - (j : Int) := by
            push_cast
            omega
          rw [heq] at hmem
          rcases List.mem_cons.1 hmem with he | h2
          · exfalso
            have hd := hgt d (by simp)
            have hj0 : (0 : Int) ≤ (j : Int) := Int.natCast_nonneg j
            omega
          · exact h2
        have := le_backCount_of_run r d hs' (k - 1) hsub
        omega
    · rw [backCount, if_neg h]
      by_contra hcon
      push_neg at hcon
      have hmem := hk 1 (by omega)
      have h1 : m - (1 : Int) ∈ m :: d :: r := by
        have heq : m - ((1 : Nat) : Int) = m - 1 := by push_cast; ring
        rw [heq] at hmem
        exact hmem
      rcases List.mem_cons.1 h1 with he | h2
      · omega
      · rcases List.mem_cons.1 h2 with he | h3
        · omega
        · have hdm := hgt d (by simp)
          have hxd := (List.sorted_cons.1 hs').1 _ h3
          omega

end Streak

namespace Streak

theorem sortedDates_congr {l l' : List Int} (h : l.toFinset = l'.toFinset) :
    sortedDates l = sortedDates l' := by
  refine sortedDates_eq (sortedDates_nodup l') (sortedDates_sorted l') ?_
  intro a
  rw [mem_sortedDates, ← List.mem_toFinset, ← List.mem_toFinset, h]

theorem calc_congr {l l' : List Int} (today : Int)
    (h : l.toFinset = l'.toFinset) :
    calculateStreakFromCompletions l today =
      calculateStreakFromCompletions l' today := by
  unfold calculateStreakFromCompletions
  rw [sortedDates_congr h]

theorem sortedDates_nil_iff {l : List Int} :
    sortedDates l = [] ↔ l.toFinset = ∅ := by
  constructor
  · intro h
    ext a
    simp only [Finset.not_mem_empty, iff_false, List.mem_toFinset]
    intro ha
    have := mem_sortedDates.2 ha
    rw [h] at this
    exact absurd this (List.not_mem_nil a)
  · intro h
    rcases hds : sortedDates l with _ | ⟨d, rest⟩
    · rfl
    · exfalso
      have hd : d ∈ l := mem_sortedDates.1 (by rw [hds]; simp)
      have : d ∈ l.toFinset := List.mem_toFinset.2 hd
      rw [h] at this
      exact absurd this (Finset.not_mem_empty d)

theorem calc_longest_eq (completions : List Int) (today : Int) :
    (calculateStreakFromCompletions completions today).longestStreak =
      specLongestRun completions.toFinset := by
  rcases hds : sortedDates completions with _ | ⟨d, rest⟩
  · have hS : completions.toFinset = ∅ := sortedDates_nil_iff.1 hds
    rw [hS]
    simp only [calculateStreakFromCompletions, hds, specLongestRun,
      Finset.card_empty, Nat.findGreatest_zero]
  · have hproj :
        (calculateStreakFromCompletions completions today).longestStreak =
        longestScan d 1 1 rest := by
      simp only [calculateStreakFromCompletions, hds]
    rw [hproj]
    have hsorted : (d :: rest).Sorted (· < ·) := by
      rw [← hds]; exact sortedDates_sorted_lt _
    have hmem : ∀ a : Int, a ∈ d :: rest ↔ a ∈ completions.toFinset := by
      intro a
      rw [← hds, mem_sortedDates, List.mem_toFinset]
    have hlen : (d :: rest).length = completions.toFinset.card := by
      rw [← hds, sortedDates_length]
    have hscan : longestScan d 1 1 rest = maxRun (d :: rest) := by
      rw [longestScan_eq rest d 1 1 le_rfl, maxRun]
      have := headRun_pos d rest
      omega
    rw [hscan, specLongestRun]
    symm
    rw [Nat.findGreatest_eq_iff]
    refine ⟨by rw [← hlen]; exact maxRun_le_length _, ?_, ?_⟩
    · intro h0
      rcases maxRun_spec (d :: rest) with h | ⟨a, ha, hrun⟩
      · exact absurd h h0
      · exact Or.inr ⟨a, (hmem a).1 ha, fun j hj => (hmem _).1 (hrun j hj)⟩
    · intro n hlt hle hP
      rcases hP with rfl | ⟨a, _, hrun⟩
      · omega
      · have : n ≤ maxRun (d :: rest) :=
          le_maxRun_of_run (d :: rest) hsorted n a
            (fun j hj => (hmem _).2 (hrun j hj))
        omega

theorem calc_last_none_iff (completions : List Int) (today : Int) :
    (calculateStreakFromCompletions completions today).lastCompletedDate =
      none ↔ completions.toFinset = ∅ := by
  rcases hds : sortedDates completions with _ | ⟨d, rest⟩
  · simp only [calculateStreakFromCompletions, hds, true_iff]
    exact sortedDates_nil_iff.1 hds
  · simp only [calculateStreakFromCompletions, hds]
    constructor
    · intro h
      rw [List.getLast?_eq_getLast _ (by simp)] at h
      exact absurd h (by simp)
    · intro h
      exfalso
      have hd : d ∈ completions := mem_sortedDates.1 (by rw [hds]; simp)
      have : d ∈ completions.toFinset := List.mem_toFinset.2 hd
      rw [h] at this
      exact absurd this (Finset.not_mem_empty d)

end Streak

namespace Streak

theorem calc_last_getLast {completions : List Int} {d : Int}
    {rest : List Int} (today : Int)
    (hds : sortedDates completions = d :: rest) :
    (calculateStreakFromCompletions completions today).lastCompletedDate =
      some ((d :: rest).getLast (by simp)) := by
  simp only [calculateStreakFromCompletions, hds]
  rw [List.getLast?_eq_getLast _ (by simp)]

theorem calc_last_max (completions : List Int) (today m : Int)
    (h : (calculateStreakFromCompletions completions today).lastCompletedDate
      = some m) :
    completions.toFinset.max = (m : WithBot Int) ∧
      m ∈ completions.toFinset := by
  rcases hds : sortedDates completions with _ | ⟨d, rest⟩
  · simp only [calculateStreakFromCompletions, hds] at h
    exact absurd h (by simp)
  · have hlast := calc_last_getLast today hds
    rw [h] at hlast
    have hm : m = (d :: rest).getLast (by simp) := by
      injection hlast
    have hmemL : m ∈ d :: rest := by
      rw [hm]
      exact List.getLast_mem _
    have hmS : m ∈ completions.toFinset :=
      List.mem_toFinset.2 (mem_sortedDates.1 (by rw [hds]; exact hmemL))
    have hsorted_le : (d :: rest).Sorted (· ≤ ·) := by
      rw [← hds]
      exact sortedDates_sorted _
    have hub : ∀ a ∈ completions.toFinset, a ≤ m := by
      intro a ha
      have haL : a ∈ d :: rest := by
        rw [← hds]
        exact mem_sortedDates.2 (List.mem_toFinset.1 ha)
      rw [hm]
      exact sorted_le_getLast _ hsorted_le a haL (by simp)
    refine ⟨?_, hmS⟩
    have hne : completions.toFinset.Nonempty := ⟨m, hmS⟩
    have hmax' : completions.toFinset.max' hne = m :=
      le_antisymm (Finset.max'_le _ _ _ hub) (Finset.le_max' _ _ hmS)
    rw [← Finset.coe_max' hne, hmax']

theorem calc_current_eq (completions : List Int) (today m : Int)
    (h : (calculateStreakFromCompletions completions today).lastCompletedDate
      = some m) :
    (today - m > 1 →
      (calculateStreakFromCompletions completions today).currentStreak = 0) ∧
    (today - m ≤ 1 →
      (calculateStreakFromCompletions completions today).currentStreak =
        specRunEndingAt completions.toFinset m) := by
  rcases hds : sortedDates completions with _ | ⟨d, rest⟩
  · simp only [calculateStreakFromCompletions, hds] at h
    exact absurd h (by simp)
  · rcases hrev : (d :: rest).reverse with _ | ⟨mr, r⟩
    · exact absurd hrev (by simp)
    · have hm : mr = m := by
        have h1 : (d :: rest).reverse.head? = (d :: rest).getLast? :=
          List.head?_reverse _
        rw [hrev] at h1
        have h2 : (calculateStreakFromCompletions completions
            today).lastCompletedDate = (d :: rest).getLast? := by
          simp only [calculateStreakFromCompletions, hds]
        rw [h] at h2
        rw [← h2] at h1
        injection h1
      subst hm
      have hcur : (calculateStreakFromCompletions completions
          today).currentStreak =
          if today - mr > 1 then 0 else 1 + backCount mr r := by
        simp only [calculateStreakFromCompletions, hds, hrev]
      constructor
      · intro hgap
        rw [hcur, if_pos hgap]
      · intro hng
        rw [hcur, if_neg (by omega)]
        have hrevsorted : (mr :: r).Sorted (· > ·) := by
          rw [← hrev]
          have hlt : (d :: rest).Sorted (· < ·) := by
            rw [← hds]
            exact sortedDates_sorted_lt _
          exact List.pairwise_reverse.2 hlt
        have hmemr : ∀ a : Int, a ∈ mr :: r ↔ a ∈ completions.toFinset := by
          intro a
          rw [← hrev, List.mem_reverse, ← hds, mem_sortedDates,
            List.mem_toFinset]
        have hlenr : (mr :: r).length = completions.toFinset.card := by
          rw [← hrev, List.length_reverse, ← hds, sortedDates_length]
        rw [specRunEndingAt]
        symm
        rw [Nat.findGreatest_eq_iff]
        refine ⟨?_, ?_, ?_⟩
        · rw [← hlenr]
          have := backCount_le r mr
          simp only [List.length_cons]
          omega
        · intro _ j hj
          exact (hmemr _).1 (backCount_mem r mr j hj)
        · intro n hlt2 hle2 hQ
          have : n ≤ 1 + backCount mr r :=
            le_backCount_of_run r mr hrevsorted n
              (fun j hj => (hmemr _).2 (hQ j hj))
          omega

-- ======================== C4 ========================

/-- C4: full recalculation is a pure, deterministic function of the set
of completion dates; on an empty set it returns all zeroes and a null
last date; otherwise longestStreak is the length of the longest run of
calendar-consecutive dates, and currentStreak is 0 when today is more
than one day past the most recent date and otherwise the length of the
consecutive-day run ending at the most recent date (the maximum of the
set). -/
theorem recompute_refines_spec (completions completions' : List Int)
    (today : Int) :
    (completions.toFinset = completions'.toFinset →
      calculateStreakFromCompletions completions today =
        calculateStreakFromCompletions completions' today) ∧
    calculateStreakFromCompletions [] today = ⟨0, 0, none⟩ ∧
    (calculateStreakFromCompletions completions today).longestStreak =
      specLongestRun completions.toFinset ∧
    ((calculateStreakFromCompletions completions today).lastCompletedDate
        = none ↔ completions.toFinset = ∅) ∧
    ∀ m : Int,
      (calculateStreakFromCompletions completions today).lastCompletedDate
        = some m →
      completions.toFinset.max = (m : WithBot Int) ∧
      (today - m > 1 →
        (calculateStreakFromCompletions completions today).currentStreak
          = 0) ∧
      (today - m ≤ 1 →
        (calculateStreakFromCompletions completions today).currentStreak =
          specRunEndingAt completions.toFinset m) := by
  refine ⟨calc_congr today, rfl, calc_longest_eq completions today,
    calc_last_none_iff completions today, ?_⟩
  intro m hm
  exact ⟨(calc_last_max completions today m hm).1,
    (calc_current_eq completions today m hm).1,
    (calc_current_eq completions today m hm).2⟩

/-- Witness for C4 at the set consisting of days 0 and 1, with today
equal to day 1. -/
theorem recompute_refines_spec_witness :
    ([0, 1] : List Int).toFinset.max = ((1 : Int) : WithBot Int) ∧
    ((1 : Int) - 1 > 1 →
      (calculateStreakFromCompletions [0, 1] 1).currentStreak = 0) ∧
    ((1 : Int) - 1 ≤ 1 →
      (calculateStreakFromCompletions [0, 1] 1).currentStreak =
        specRunEndingAt ([0, 1] : List Int).toFinset 1) :=
  (recompute_refines_spec [0, 1] [0, 1] 1).2.2.2.2 1 (by decide)

end Streak

namespace Streak

-- ======================== REPLAY FACTS ========================

theorem stepIncr_last (p : Profile) (d : Int) :
    (stepIncr p d).lastCompletedLocalDate = some d := by
  unfold stepIncr
  rcases p.lastCompletedLocalDate with _ | l
  · rfl
  · simp only []
    split_ifs <;> rfl

theorem replayStep_incr (db : DB) (p : Profile) (l d st : Int)
    (hp : db.profile = some p) (hl : p.lastCompletedLocalDate = some l)
    (hnotmem : d ∉ db.completions) (hlt : l < d) :
    replayStep db d st =
      ⟨db.completions ++ [d], some (stepIncr p d)⟩ := by
  unfold replayStep
  rw [if_neg hnotmem]
  unfold updateStreak applyConditionalWrite
  simp only [hp, hl]
  by_cases h1 : d - l = 1
  · rw [if_pos h1]
    simp [stepIncr, hl, h1]
  · rw [if_neg h1, if_neg (by omega), if_neg (by omega)]
    simp [stepIncr, hl, h1]

theorem replay_sorted_gen :
    ∀ (ds : List Int) (db : DB) (p : Profile) (l st : Int),
      db.profile = some p → p.lastCompletedLocalDate = some l →
      (∀ x ∈ db.completions, x ≤ l) →
      (l :: ds).Sorted (· < ·) →
      replay st db ds = ⟨db.completions ++ ds, some (foldIncr p ds)⟩
  | [], db, p, l, st, hp, hl, hc, hs => by
    simp only [replay, List.foldl_nil, foldIncr, List.append_nil]
    cases db
    simp only at hp
    rw [hp]
  | d :: rest, db, p, l, st, hp, hl, hc, hs => by
    have hld : l < d := (List.sorted_cons.1 hs).1 d (by simp)
    have hdm : d ∉ db.completions := fun hmem => absurd (hc d hmem) (by omega)
    have hstep := replayStep_incr db p l d st hp hl hdm hld
    have hrec := replay_sorted_gen rest
      ⟨db.completions ++ [d], some (stepIncr p d)⟩ (stepIncr p d) d st rfl
      (stepIncr_last p d)
      (by
        intro x hx
        rcases List.mem_append.1 hx with hx' | hx'
        · exact le_of_lt (lt_of_le_of_lt (hc x hx') hld)
        · simp only [List.mem_singleton] at hx'
          omega)
      (by
        have h1 : (l :: d :: rest).Sorted (· < ·) := hs
        exact (List.sorted_cons.1 h1).2)
    calc replay st db (d :: rest)
        = replay st (replayStep db d st) rest := by
          simp only [replay, List.foldl_cons]
      _ = replay st ⟨db.completions ++ [d], some (stepIncr p d)⟩ rest := by
          rw [hstep]
      _ = ⟨(db.completions ++ [d]) ++ rest,
            some (foldIncr (stepIncr p d) rest)⟩ := hrec
      _ = ⟨db.completions ++ d :: rest, some (foldIncr p (d :: rest))⟩ := by
          rw [List.append_assoc]
          rfl

theorem foldIncr_longest :
    ∀ (rest : List Int) (prev : Int) (long temp : Nat), 1 ≤ temp →
      (foldIncr ⟨temp, max long temp, some prev⟩ rest).longestStreak =
        longestScan prev long temp rest
  | [], prev, long, temp, ht => by
    simp [foldIncr, longestScan]
  | d :: r, prev, long, temp, ht => by
    simp only [foldIncr, List.foldl_cons, stepIncr]
    by_cases h : d - prev = 1
    · rw [if_pos h]
      have hmax : max (max long temp) (temp + 1) = max long (temp + 1) := by
        omega
      rw [hmax, longestScan, if_pos h]
      exact foldIncr_longest r d long (temp + 1) (by omega)
    · rw [if_neg h, longestScan, if_neg h]
      have hmax : max (max long temp) 1 = max (max long temp) 1 := rfl
      have := foldIncr_longest r d (max long temp) 1 le_rfl
      rw [Nat.max_eq_left (le_trans ht (le_max_right long temp))] at this ⊢
      exact this

theorem foldIncr_current :
    ∀ (rest : List Int) (prev : Int) (L t : Nat),
      (foldIncr ⟨t, L, some prev⟩ rest).currentStreak = tailRun prev t rest
  | [], _, _, _ => by simp [foldIncr, tailRun]
  | d :: r, prev, L, t => by
    simp only [foldIncr, List.foldl_cons, stepIncr]
    by_cases h : d - prev = 1
    · rw [if_pos h, tailRun, if_pos h]
      exact foldIncr_current r d _ _
    · rw [if_neg h, tailRun, if_neg h]
      exact foldIncr_current r d _ _

theorem foldIncr_last :
    ∀ (rest : List Int) (prev : Int) (L t : Nat),
      (foldIncr ⟨t, L, some prev⟩ rest).lastCompletedLocalDate =
        some ((prev :: rest).getLast (by simp))
  | [], _, _, _ => by simp [foldIncr]
  | d :: r, prev, L, t => by
    simp only [foldIncr, List.foldl_cons, stepIncr]
    rw [List.getLast_cons (by simp)]
    by_cases h : d - prev = 1
    · rw [if_pos h]
      exact foldIncr_last r d _ _
    · rw [if_neg h]
      exact foldIncr_last r d _ _

end Streak

namespace Streak

theorem tailRun_append :
    ∀ (l : List Int) (prev : Int) (cur : Nat) (x : Int),
      tailRun prev cur (l ++ [x]) =
        if x - (prev :: l).getLast (by simp) = 1
        then tailRun prev cur l + 1 else 1
  | [], prev, cur, x => by
    simp only [List.nil_append, tailRun, List.getLast_singleton]
  | d :: t, prev, cur, x => by
    by_cases h : d - prev = 1
    · rw [List.cons_append, tailRun, if_pos h, tailRun_append t d (cur + 1) x,
        tailRun, if_pos h]
      simp [List.getLast_cons]
    · rw [List.cons_append, tailRun, if_neg h, tailRun_append t d 1 x,
        tailRun, if_neg h]
      simp [List.getLast_cons]

theorem tailRun_eq_walkCur :
    ∀ (ds : List Int) (d : Int), tailRun d 1 ds = walkCur (d :: ds) := by
  intro ds
  induction ds using List.reverseRecOn with
  | nil =>
    intro d
    simp [tailRun, walkCur, backCount]
  | append_singleton l x ih =>
    intro d
    rw [tailRun_append]
    have hrev : (d :: (l ++ [x])).reverse = x :: (d :: l).reverse := by
      simp
    rcases hrev2 : (d :: l).reverse with _ | ⟨m, r⟩
    · exact absurd hrev2 (by simp)
    · have hm : m = (d :: l).getLast (by simp) := by
        have h1 : (d :: l).reverse.head? = (d :: l).getLast? :=
          List.head?_reverse _
        rw [hrev2, List.getLast?_eq_getLast _ (by simp)] at h1
        injection h1
      have hw : walkCur (d :: (l ++ [x])) = 1 + backCount x (m :: r) := by
        rw [walkCur, hrev, hrev2]
      have hw2 : walkCur (d :: l) = 1 + backCount m r := by
        rw [walkCur, hrev2]
      rw [hw, backCount, ← hm]
      by_cases h : x - m = 1
      · rw [if_pos h, if_pos h, ih d, hw2]
        omega
      · rw [if_neg h, if_neg h]

-- ======================== C1 (amended) ========================

/-- C1 (amended): replaying a strictly ascending list of dates from the
empty state through the incremental engine reproduces exactly the
longestStreak and lastCompletedDate of a full recalculation over the
same set; the currentStreak also agrees whenever the server date used
by the recalculation is at most one day after the most recent
completion; the stored ledger is the replayed set itself. -/
theorem replay_agrees_with_recompute (ds : List Int) (st : Int)
    (hs : ds.Sorted (· < ·)) :
    (replay st dbEmpty ds).completions = ds ∧
    (profileView (replay st dbEmpty ds)).longestStreak =
      (calculateStreakFromCompletions ds st).longestStreak ∧
    (profileView (replay st dbEmpty ds)).lastCompletedLocalDate =
      (calculateStreakFromCompletions ds st).lastCompletedDate ∧
    ∀ (h : ds ≠ []), st - ds.getLast h ≤ 1 →
      (profileView (replay st dbEmpty ds)).currentStreak =
        (calculateStreakFromCompletions ds st).currentStreak := by
  rcases ds with _ | ⟨d, rest⟩
  · exact ⟨rfl, rfl, rfl, fun h => absurd rfl h⟩
  · have hds : sortedDates (d :: rest) = d :: rest :=
      sortedDates_eq (hs.imp ne_of_lt) (hs.imp le_of_lt) (fun a => Iff.rfl)
    have hstep1 : replayStep dbEmpty d st = ⟨[d], some ⟨1, 1, some d⟩⟩ := rfl
    have hrepl : replay st dbEmpty (d :: rest) =
        ⟨d :: rest, some (foldIncr ⟨1, 1, some d⟩ rest)⟩ := by
      calc replay st dbEmpty (d :: rest)
          = replay st ⟨[d], some ⟨1, 1, some d⟩⟩ rest := by
            simp only [replay, List.foldl_cons]
            rw [hstep1]
        _ = ⟨[d] ++ rest, some (foldIncr ⟨1, 1, some d⟩ rest)⟩ :=
            replay_sorted_gen rest ⟨[d], some ⟨1, 1, some d⟩⟩
              ⟨1, 1, some d⟩ d st rfl rfl (by simp) hs
        _ = ⟨d :: rest, some (foldIncr ⟨1, 1, some d⟩ rest)⟩ := rfl
    have hview : profileView (replay st dbEmpty (d :: rest)) =
        foldIncr ⟨1, 1, some d⟩ rest := by
      rw [hrepl]
      rfl
    refine ⟨by rw [hrepl], ?_, ?_, ?_⟩
    · rw [hview]
      have h1 : (foldIncr ⟨1, 1, some d⟩ rest).longestStreak =
          longestScan d 1 1 rest := by
        have := foldIncr_longest rest d 1 1 le_rfl
        simpa using this
      rw [h1]
      simp only [calculateStreakFromCompletions, hds]
    · rw [hview, foldIncr_last rest d 1 1, calc_last_getLast st hds]
    · intro h hfresh
      rw [hview, foldIncr_current rest d 1 1, tailRun_eq_walkCur]
      rcases hrev : (d :: rest).reverse with _ | ⟨m, r⟩
      · exact absurd hrev (by simp)
      · have hm : m = (d :: rest).getLast (by simp) := by
          have h1 : (d :: rest).reverse.head? = (d :: rest).getLast? :=
            List.head?_reverse _
          rw [hrev, List.getLast?_eq_getLast _ (by simp)] at h1
          injection h1
        have hwc : walkCur (d :: rest) = 1 + backCount m r := by
          rw [walkCur, hrev]
        have hcalc : (calculateStreakFromCompletions (d :: rest)
            st).currentStreak =
            if st - m > 1 then 0 else 1 + backCount m r := by
          simp only [calculateStreakFromCompletions, hds, hrev]
        rw [hwc, hcalc, if_neg (by rw [hm]; omega)]

/-- Witness for C1 (amended) on the set of days 0 and 1 with server
date 1. -/
theorem replay_agrees_with_recompute_witness :
    (profileView (replay 1 dbEmpty [0, 1])).currentStreak =
      (calculateStreakFromCompletions [0, 1] 1).currentStreak :=
  (replay_agrees_with_recompute [0, 1] 1 (by decide)).2.2.2
    (by decide) (by decide)

end Streak

namespace Streak

-- ======================== C7 ========================

theorem consecList_mem_ge :
    ∀ (n : Nat) (b x : Int), x ∈ consecList b n → b ≤ x
  | n + 1, b, x, hx => by
    rw [consecList] at hx
    rcases List.mem_cons.1 hx with rfl | hx'
    · exact le_refl x
    · have := consecList_mem_ge n (b + 1) x hx'
      omega

theorem consecList_sorted :
    ∀ (n : Nat) (a : Int), (consecList a n).Sorted (· < ·)
  | 0, a => by simp [consecList]
  | n + 1, a => by
    rw [consecList]
    refine List.sorted_cons.2 ⟨?_, consecList_sorted n (a + 1)⟩
    intro b hb
    have := consecList_mem_ge n (a + 1) b hb
    omega

theorem foldIncr_consec :
    ∀ (m : Nat) (a : Int) (c L : Nat), c ≤ L →
      foldIncr ⟨c, L, some a⟩ (consecList (a + 1) m) =
        ⟨c + m, max L (c + m), some (a + (m : Int))⟩
  | 0, a, c, L, hc => by
    show (⟨c, L, some a⟩ : Profile) =
      ⟨c + 0, max L (c + 0), some (a + ((0 : Nat) : Int))⟩
    have h2 : max L (c + 0) = L := Nat.max_eq_left (by omega)
    have h3 : a + ((0 : Nat) : Int) = a := by
      push_cast
      ring
    rw [h2, h3]
    rfl
  | m + 1, a, c, L, hc => by
    have hstep : stepIncr ⟨c, L, some a⟩ (a + 1) =
        ⟨c + 1, max L (c + 1), some (a + 1)⟩ := by
      simp only [stepIncr]
      rw [if_pos (by omega)]
    have hcons : foldIncr ⟨c, L, some a⟩ (consecList (a + 1) (m + 1)) =
        foldIncr (stepIncr ⟨c, L, some a⟩ (a + 1))
          (consecList (a + 1 + 1) m) := rfl
    rw [hcons, hstep, foldIncr_consec m (a + 1) (c + 1) (max L (c + 1))
      (le_max_right _ _)]
    have h1 : c + 1 + m = c + (m + 1) := by omega
    have h2 : max (max L (c + 1)) (c + 1 + m) = max L (c + (m + 1)) := by
      omega
    have h3 : a + 1 + (m : Int) = a + ((m + 1 : Nat) : Int) := by
      push_cast
      ring
    rw [h2, h1, h3]

/-- C7: recording N calendar-consecutive distinct-day completions in
chronological order for a user with no prior completions yields an
aggregate with currentStreak = longestStreak = N. -/
theorem consecutive_replay_streak (n : Nat) (a st : Int) (hn : 1 ≤ n) :
    (replay st dbEmpty (consecList a n)).profile =
      some ⟨n, n, some (a + (n : Int) - 1)⟩ := by
  obtain ⟨m, rfl⟩ : ∃ m, n = m + 1 := ⟨n - 1, by omega⟩
  rw [consecList]
  have hstep1 : replayStep dbEmpty a st = ⟨[a], some ⟨1, 1, some a⟩⟩ := rfl
  have hrepl : replay st dbEmpty (a :: consecList (a + 1) m) =
      ⟨[a] ++ consecList (a + 1) m,
        some (foldIncr ⟨1, 1, some a⟩ (consecList (a + 1) m))⟩ := by
    calc replay st dbEmpty (a :: consecList (a + 1) m)
        = replay st ⟨[a], some ⟨1, 1, some a⟩⟩ (consecList (a + 1) m) := by
          simp only [replay, List.foldl_cons]
          rw [hstep1]
      _ = ⟨[a] ++ consecList (a + 1) m,
            some (foldIncr ⟨1, 1, some a⟩ (consecList (a + 1) m))⟩ :=
          replay_sorted_gen _ _ _ a st rfl rfl (by simp)
            (by have := consecList_sorted (m + 1) a
                rwa [consecList] at this)
  rw [hrepl, foldIncr_consec m a 1 1 le_rfl]
  have h1 : 1 + m = m + 1 := by omega
  have h2 : max 1 (1 + m) = m + 1 := by omega
  have h3 : a + (m : Int) = a + ((m + 1 : Nat) : Int) - 1 := by
    push_cast
    ring
  rw [h2, h1, h3]

/-- Witness for C7: three consecutive days from day 0. -/
theorem consecutive_replay_streak_witness :
    (replay 0 dbEmpty (consecList 0 3)).profile =
      some ⟨3, 3, some ((0 : Int) + (3 : Int) - 1)⟩ := by
  exact consecutive_replay_streak 3 0 0 (by decide)

end Streak

namespace Streak

-- ======================== SPEC-LEVEL BOUNDS ========================

theorem specLongestRun_mono {S T : Finset Int} (h : S ⊆ T) :
    specLongestRun S ≤ specLongestRun T := by
  unfold specLongestRun
  apply Nat.findGreatest_mono
  · intro n hn
    rcases hn with rfl | ⟨a, ha, hrun⟩
    · exact Or.inl rfl
    · exact Or.inr ⟨a, h ha, fun j hj => h (hrun j hj)⟩
  · exact Finset.card_le_card h

theorem specRunEndingAt_mono {S T : Finset Int} (d : Int) (h : S ⊆ T) :
    specRunEndingAt S d ≤ specRunEndingAt T d := by
  unfold specRunEndingAt
  apply Nat.findGreatest_mono
  · intro n hn j hj
    exact h (hn j hj)
  · exact Finset.card_le_card h

theorem one_le_specLongestRun {S : Finset Int} {d : Int} (hd : d ∈ S) :
    1 ≤ specLongestRun S := by
  unfold specLongestRun
  apply Nat.le_findGreatest (Finset.card_pos.2 ⟨d, hd⟩)
  refine Or.inr ⟨d, hd, fun j hj => ?_⟩
  have hj0 : j = 0 := by omega
  subst hj0
  simpa using hd

theorem one_le_specRunEndingAt {S : Finset Int} {d : Int} (hd : d ∈ S) :
    1 ≤ specRunEndingAt S d := by
  unfold specRunEndingAt
  apply Nat.le_findGreatest (Finset.card_pos.2 ⟨d, hd⟩)
  intro j hj
  have hj0 : j = 0 := by omega
  subst hj0
  simpa using hd

theorem specRunEndingAt_le_card (S : Finset Int) (d : Int) :
    specRunEndingAt S d ≤ S.card :=
  Nat.findGreatest_le _

theorem specRunEndingAt_run {S : Finset Int} {d : Int}
    (h0 : specRunEndingAt S d ≠ 0) :
    ∀ j < specRunEndingAt S d, d - (j : Int) ∈ S :=
  Nat.findGreatest_of_ne_zero rfl h0

theorem specRunEndingAt_le_specLongestRun {S : Finset Int} {d : Int}
    (_hd : d ∈ S) :
    specRunEndingAt S d ≤ specLongestRun S := by
  rcases Nat.eq_zero_or_pos (specRunEndingAt S d) with h0 | hpos
  · omega
  · have hrun := specRunEndingAt_run (S := S) (d := d) (by omega)
    unfold specLongestRun
    apply Nat.le_findGreatest (specRunEndingAt_le_card S d)
    refine Or.inr ⟨d - ((specRunEndingAt S d - 1 : Nat) : Int), ?_, ?_⟩
    · exact hrun (specRunEndingAt S d - 1) (by omega)
    · intro j hj
      have heq : d - ((specRunEndingAt S d - 1 : Nat) : Int) + (j : Int) =
          d - ((specRunEndingAt S d - 1 - j : Nat) : Int) := by
        omega
      rw [heq]
      exact hrun (specRunEndingAt S d - 1 - j) (by omega)

theorem specRunEndingAt_insert_succ {S : Finset Int} {l : Int}
    (hins : (l + 1) ∉ S) :
    specRunEndingAt S l + 1 ≤ specRunEndingAt (insert (l + 1) S) (l + 1) := by
  unfold specRunEndingAt
  apply Nat.le_findGreatest
  · rw [Finset.card_insert_of_not_mem hins]
    have := specRunEndingAt_le_card S l
    unfold specRunEndingAt at this
    omega
  · intro j hj
    cases j with
    | zero => simp
    | succ i =>
      have hi : i < specRunEndingAt S l := by
        unfold specRunEndingAt
        omega
      have hmem : l - (i : Int) ∈ S := by
        rcases Nat.eq_zero_or_pos (specRunEndingAt S l) with h0 | hpos
        · omega
        · exact specRunEndingAt_run (by omega) i hi
      have heq : l + 1 - ((i + 1 : Nat) : Int) = l - (i : Int) := by
        push_cast
        ring
      rw [heq]
      exact Finset.mem_insert_of_mem hmem

theorem calc_cur_le_long (l : List Int) (today : Int) :
    (calculateStreakFromCompletions l today).currentStreak ≤
      (calculateStreakFromCompletions l today).longestStreak := by
  rcases hlast : (calculateStreakFromCompletions l
      today).lastCompletedDate with _ | m
  · have hS := (calc_last_none_iff l today).1 hlast
    have hds := sortedDates_nil_iff.2 hS
    simp [calculateStreakFromCompletions, hds]
  · have hm := calc_last_max l today m hlast
    have hcur := calc_current_eq l today m hlast
    rw [calc_longest_eq]
    by_cases hgap : today - m > 1
    · rw [hcur.1 hgap]
      exact Nat.zero_le _
    · rw [hcur.2 (by omega)]
      exact specRunEndingAt_le_specLongestRun hm.2

theorem calc_cur_le_runEnd (l : List Int) (today m : Int)
    (hlast : (calculateStreakFromCompletions l today).lastCompletedDate
      = some m) :
    (calculateStreakFromCompletions l today).currentStreak ≤
      specRunEndingAt l.toFinset m := by
  have hcur := calc_current_eq l today m hlast
  by_cases hgap : today - m > 1
  · rw [hcur.1 hgap]
    exact Nat.zero_le _
  · rw [hcur.2 (by omega)]

end Streak

namespace Streak

-- ======================== SEQUENTIAL STEP FACTS ========================

theorem recalc_inv (db : DB) (st : Int) (hinv : Inv db) :
    Inv (recalculateAndStore db st).1 ∧
    longestOfDB db ≤ longestOfDB (recalculateAndStore db st).1 := by
  rcases hp : db.profile with _ | p
  · have hfst : (recalculateAndStore db st).1 = ⟨db.completions, none⟩ := by
      unfold recalculateAndStore
      rw [show db = (⟨db.completions, none⟩ : DB) from by
        cases db
        simp only at hp
        rw [hp]]
      rfl
    constructor
    · intro q hq
      rw [hfst] at hq
      exact absurd hq (by simp)
    · rw [hfst]
      simp [longestOfDB, profileView, hp]
  · have hfst : (recalculateAndStore db st).1 = ⟨db.completions, some
        ⟨(calculateStreakFromCompletions db.completions st).currentStreak,
         (calculateStreakFromCompletions db.completions st).longestStreak,
         (calculateStreakFromCompletions db.completions
           st).lastCompletedDate⟩⟩ := by
      unfold recalculateAndStore
      rw [show db = (⟨db.completions, some p⟩ : DB) from by
        cases db
        simp only at hp
        rw [hp]]
      rfl
    constructor
    · intro q hq
      rw [hfst] at hq
      simp only [Option.some.injEq] at hq
      subst hq
      refine ⟨calc_cur_le_long _ _, ?_, ?_⟩
      · show (calculateStreakFromCompletions db.completions
            st).longestStreak ≤ specLongestRun db.completions.toFinset
        rw [calc_longest_eq]
      · intro lx hlx
        exact calc_cur_le_runEnd db.completions st lx hlx
    · rw [hfst]
      have h1 := (hinv p hp).2.1
      simp only [longestOfDB, profileView, hp, Option.getD_some]
      rw [calc_longest_eq]
      exact h1

theorem applyConditionalWrite_seq (c : List Int) (p : Profile)
    (ns nl : Nat) (d st : Int) :
    applyConditionalWrite ⟨c, some p⟩ p.lastCompletedLocalDate ns nl d st =
      (⟨c, some ⟨ns, nl, some d⟩⟩, ⟨ns, nl, some d, false⟩) := by
  unfold applyConditionalWrite
  simp only []
  rw [if_pos trivial]

theorem updateStreak_seq_none (c : List Int) (d st : Int) :
    updateStreak ⟨c, none⟩ ⟨c, none⟩ d st =
      (⟨c, some ⟨1, 1, some d⟩⟩, ⟨1, 1, some d, false⟩) := rfl

theorem updateStreak_seq_lastnone (c : List Int) (p : Profile) (d st : Int)
    (hl : p.lastCompletedLocalDate = none) :
    updateStreak ⟨c, some p⟩ ⟨c, some p⟩ d st =
      (⟨c, some ⟨1, max p.longestStreak 1, some d⟩⟩,
       ⟨1, max p.longestStreak 1, some d, false⟩) := by
  unfold updateStreak
  simp only [hl]
  rw [show (none : Option Int) = p.lastCompletedLocalDate from hl.symm]
  exact applyConditionalWrite_seq c p 1 (max p.longestStreak 1) d st

theorem updateStreak_seq_some (c : List Int) (p : Profile) (l d st : Int)
    (hl : p.lastCompletedLocalDate = some l) :
    (d - l = 1 → updateStreak ⟨c, some p⟩ ⟨c, some p⟩ d st =
      (⟨c, some ⟨p.currentStreak + 1,
          max p.longestStreak (p.currentStreak + 1), some d⟩⟩,
       ⟨p.currentStreak + 1, max p.longestStreak (p.currentStreak + 1),
        some d, false⟩)) ∧
    (d - l = 0 → updateStreak ⟨c, some p⟩ ⟨c, some p⟩ d st =
      (⟨c, some ⟨p.currentStreak,
          max p.longestStreak p.currentStreak, some d⟩⟩,
       ⟨p.currentStreak, max p.longestStreak p.currentStreak,
        some d, false⟩)) ∧
    (1 < d - l → updateStreak ⟨c, some p⟩ ⟨c, some p⟩ d st =
      (⟨c, some ⟨1, max p.longestStreak 1, some d⟩⟩,
       ⟨1, max p.longestStreak 1, some d, false⟩)) ∧
    (d - l < 0 → updateStreak ⟨c, some p⟩ ⟨c, some p⟩ d st =
      recalculateAndStore ⟨c, some p⟩ st) := by
  refine ⟨?_, ?_, ?_, ?_⟩ <;> intro hcase <;>
    unfold updateStreak <;> simp only [hl]
  · rw [if_pos hcase,
      show (some l : Option Int) = p.lastCompletedLocalDate from hl.symm]
    exact applyConditionalWrite_seq c p _ _ d st
  · rw [if_neg (by omega), if_pos hcase,
      show (some l : Option Int) = p.lastCompletedLocalDate from hl.symm]
    exact applyConditionalWrite_seq c p _ _ d st
  · rw [if_neg (by omega), if_neg (by omega), if_neg (by omega),
      show (some l : Option Int) = p.lastCompletedLocalDate from hl.symm]
    exact applyConditionalWrite_seq c p _ _ d st
  · rw [if_neg (by omega), if_neg (by omega), if_pos hcase]

end Streak

namespace Streak

theorem updateStreak_seq_inv (c0 : List Int) (pr : Option Profile)
    (d st : Int) (hfresh : d ∉ c0) (hinv : Inv ⟨c0, pr⟩) :
    Inv (updateStreak ⟨c0 ++ [d], pr⟩ ⟨c0 ++ [d], pr⟩ d st).1 ∧
    longestOfDB ⟨c0, pr⟩ ≤
      longestOfDB (updateStreak ⟨c0 ++ [d], pr⟩ ⟨c0 ++ [d], pr⟩ d st).1 := by
  have hdT : d ∈ (c0 ++ [d]).toFinset := by simp
  have hST : c0.toFinset ⊆ (c0 ++ [d]).toFinset := by
    intro x hx
    simp only [List.mem_toFinset] at hx ⊢
    exact List.mem_append.2 (Or.inl hx)
  have hT : (c0 ++ [d]).toFinset = insert d c0.toFinset := by
    ext x
    simp [or_comm]
  have hdS : d ∉ c0.toFinset := by simpa using hfresh
  rcases pr with _ | p
  · rw [updateStreak_seq_none]
    constructor
    · intro q hq
      simp only [Option.some.injEq] at hq
      subst hq
      refine ⟨le_rfl, one_le_specLongestRun hdT, ?_⟩
      intro lx hlx
      obtain rfl : d = lx := by simpa using hlx
      exact one_le_specRunEndingAt hdT
    · simp [longestOfDB, profileView]
  · obtain ⟨hcl, hls, hre⟩ := hinv p rfl
    have hls' : p.longestStreak ≤ specLongestRun c0.toFinset := hls
    have hre' : ∀ lx, p.lastCompletedLocalDate = some lx →
        p.currentStreak ≤ specRunEndingAt c0.toFinset lx := hre
    have hmono_reset : Inv ⟨c0 ++ [d],
        some ⟨1, max p.longestStreak 1, some d⟩⟩ := by
      intro q hq
      simp only [Option.some.injEq] at hq
      subst hq
      refine ⟨le_max_right _ _, ?_, ?_⟩
      · have h1 : p.longestStreak ≤ specLongestRun (c0 ++ [d]).toFinset :=
          le_trans hls' (specLongestRun_mono hST)
        have h2 := one_le_specLongestRun hdT
        show max p.longestStreak 1 ≤ specLongestRun (c0 ++ [d]).toFinset
        omega
      · intro lx hlx
        obtain rfl : d = lx := by simpa using hlx
        exact one_le_specRunEndingAt hdT
    rcases hl : p.lastCompletedLocalDate with _ | l
    · rw [updateStreak_seq_lastnone _ _ _ _ hl]
      exact ⟨hmono_reset, le_max_left _ _⟩
    · obtain ⟨hcase1, hcase0, hcasegap, hcaseneg⟩ :=
        updateStreak_seq_some (c0 ++ [d]) p l d st hl
      rcases lt_trichotomy d l with hdl | hdl | hdl
      · -- backfill: full recalculation
        rw [hcaseneg (by omega)]
        have hinv' : Inv ⟨c0 ++ [d], some p⟩ := by
          intro q hq
          simp only [Option.some.injEq] at hq
          subst hq
          exact ⟨hcl, le_trans hls' (specLongestRun_mono hST),
            fun lx hlx => le_trans (hre' lx hlx)
              (specRunEndingAt_mono lx hST)⟩
        have hrec := recalc_inv ⟨c0 ++ [d], some p⟩ st hinv'
        exact ⟨hrec.1, hrec.2⟩
      · -- same day
        subst hdl
        rw [hcase0 (by omega)]
        have hreT : p.currentStreak ≤
            specRunEndingAt (c0 ++ [d]).toFinset d :=
          le_trans (hre' d hl) (specRunEndingAt_mono d hST)
        constructor
        · intro q hq
          simp only [Option.some.injEq] at hq
          subst hq
          refine ⟨le_max_right _ _, ?_, ?_⟩
          · have h1 : p.longestStreak ≤
                specLongestRun (c0 ++ [d]).toFinset :=
              le_trans hls' (specLongestRun_mono hST)
            have h2 : p.currentStreak ≤
                specLongestRun (c0 ++ [d]).toFinset :=
              le_trans hreT (specRunEndingAt_le_specLongestRun hdT)
            show max p.longestStreak p.currentStreak ≤
              specLongestRun (c0 ++ [d]).toFinset
            omega
          · intro lx hlx
            obtain rfl : d = lx := by simpa using hlx
            exact hreT
        · exact le_max_left _ _
      · by_cases h1 : d - l = 1
        · -- consecutive day
          rw [hcase1 h1]
          have hld : d = l + 1 := by omega
          have hreT : p.currentStreak + 1 ≤
              specRunEndingAt (c0 ++ [d]).toFinset d := by
            have hstep : specRunEndingAt c0.toFinset l + 1 ≤
                specRunEndingAt (insert (l + 1) c0.toFinset) (l + 1) :=
              specRunEndingAt_insert_succ (by rw [← hld]; exact hdS)
            rw [hT, hld]
            have := hre' l hl
            omega
          constructor
          · intro q hq
            simp only [Option.some.injEq] at hq
            subst hq
            refine ⟨le_max_right _ _, ?_, ?_⟩
            · have ha : p.longestStreak ≤
                  specLongestRun (c0 ++ [d]).toFinset :=
                le_trans hls' (specLongestRun_mono hST)
              have hb : p.currentStreak + 1 ≤
                  specLongestRun (c0 ++ [d]).toFinset :=
                le_trans hreT (specRunEndingAt_le_specLongestRun hdT)
              show max p.longestStreak (p.currentStreak + 1) ≤
                specLongestRun (c0 ++ [d]).toFinset
              omega
            · intro lx hlx
              obtain rfl : d = lx := by simpa using hlx
              exact hreT
          · exact le_max_left _ _
        · -- gap of more than one day
          rw [hcasegap (by omega)]
          exact ⟨hmono_reset, le_max_left _ _⟩

end Streak

namespace Streak

theorem recordDB_of_error (db : DB) (d sut st : Int) (e : ValidationError)
    (hv : validateCompletion d sut = some e) :
    recordDB db d sut st = db := by
  unfold recordDB recordCompletion
  simp only [hv]

theorem recordDB_of_dup (db : DB) (d sut st : Int)
    (hv : validateCompletion d sut = none) (hd : d ∈ db.completions) :
    recordDB db d sut st = db := by
  unfold recordDB recordCompletion
  simp only [hv, if_pos hd]

theorem recordDB_of_new (db : DB) (d sut st : Int)
    (hv : validateCompletion d sut = none) (hd : d ∉ db.completions) :
    recordDB db d sut st =
      (updateStreak ⟨db.completions ++ [d], db.profile⟩
        ⟨db.completions ++ [d], db.profile⟩ d st).1 := by
  unfold recordDB recordCompletion
  simp only [hv, if_neg hd]

theorem recordDB_step (db : DB) (d sut st : Int) (hinv : Inv db) :
    Inv (recordDB db d sut st) ∧
    longestOfDB db ≤ longestOfDB (recordDB db d sut st) := by
  rcases hv : validateCompletion d sut with _ | e
  · by_cases hd : d ∈ db.completions
    · rw [recordDB_of_dup db d sut st hv hd]
      exact ⟨hinv, le_rfl⟩
    · rw [recordDB_of_new db d sut st hv hd]
      have hinv0 : Inv ⟨db.completions, db.profile⟩ := fun q hq => hinv q hq
      exact updateStreak_seq_inv db.completions db.profile d st hd hinv0
  · rw [recordDB_of_error db d sut st e hv]
    exact ⟨hinv, le_rfl⟩

theorem processItem_db_eq (sut st : Int) (acc : BatchAcc) (it : BatchItem) :
    (processItem sut st acc it).db =
      recordDateDB sut st acc.db it.completionLocalDate := by
  unfold processItem recordDateDB recordDB
  rcases it.completionLocalDate with _ | dd
  · rfl
  · rcases hrc : recordCompletion acc.db dd sut st with e | ⟨db', r⟩
    · simp [hrc]
    · simp only [hrc]
      by_cases hdup : r.isDuplicate <;> simp [hdup]

theorem batch_fold_step (sut st : Int) (items : List BatchItem) :
    ∀ acc : BatchAcc, Inv acc.db →
      Inv ((items.foldl (processItem sut st) acc).db) ∧
      longestOfDB acc.db ≤
        longestOfDB ((items.foldl (processItem sut st) acc).db) := by
  induction items with
  | nil => exact fun acc h => ⟨h, le_rfl⟩
  | cons it rest ih =>
    intro acc h
    rw [List.foldl_cons]
    have hstep : Inv (processItem sut st acc it).db ∧
        longestOfDB acc.db ≤ longestOfDB (processItem sut st acc it).db := by
      rw [processItem_db_eq]
      rcases hit : it.completionLocalDate with _ | dd
      · exact ⟨h, le_rfl⟩
      · exact recordDB_step acc.db dd sut st h
    have hrest := ih (processItem sut st acc it) hstep.1
    exact ⟨hrest.1, le_trans hstep.2 hrest.2⟩

theorem syncDB_step (db : DB) (items : List BatchItem) (sut st : Int)
    (hinv : Inv db) :
    Inv (syncDB db items sut st) ∧
    longestOfDB db ≤ longestOfDB (syncDB db items sut st) := by
  unfold syncDB validateOfflineCompletions
  by_cases hsize : items.length > MAX_BATCH_SIZE
  · rw [if_pos hsize]
    exact ⟨hinv, le_rfl⟩
  · rw [if_neg hsize]
    exact batch_fold_step sut st (List.insertionSort itemRel items)
      ⟨db, [], 0, 0, 0, none⟩ hinv

theorem reachable_inv (db : DB) (h : Reachable db) : Inv db := by
  induction h with
  | base =>
    intro q hq
    exact absurd hq (by simp [dbEmpty])
  | record h d sut st ih => exact (recordDB_step _ d sut st ih).1
  | sync h items sut st ih => exact (syncDB_step _ items sut st ih).1

-- ======================== C2 ========================

/-- C2: in every state reachable from the empty store by
record_completion and validate_offline_completions calls, the stored
aggregate satisfies currentStreak ≤ longestStreak, and longestStreak
never decreases across any further record_completion or
validate_offline_completions step (including the steps that overwrite
the aggregate via the full recalculation). -/
theorem reachable_invariants (db : DB) (h : Reachable db) :
    (∀ p, db.profile = some p → p.currentStreak ≤ p.longestStreak) ∧
    (∀ d sut st, longestOfDB db ≤ longestOfDB (recordDB db d sut st)) ∧
    (∀ items sut st,
      longestOfDB db ≤ longestOfDB (syncDB db items sut st)) := by
  have hinv := reachable_inv db h
  exact ⟨fun p hp => (hinv p hp).1,
    fun d sut st => (recordDB_step db d sut st hinv).2,
    fun items sut st => (syncDB_step db items sut st hinv).2⟩

/-- Witness for C2 at the empty store. -/
theorem reachable_invariants_witness :
    longestOfDB dbEmpty ≤ longestOfDB (recordDB dbEmpty 0 0 0) :=
  (reachable_invariants dbEmpty Reachable.base).2.1 0 0 0

end Streak

namespace Streak

-- ======================== C9 MACHINERY ========================

theorem keyOf_injective : Function.Injective keyOf := by
  intro a b hab
  rcases a with _ | x <;> rcases b with _ | y
  · rfl
  · exact absurd hab (by simp [keyOf])
  · exact absurd hab (by simp [keyOf])
  · simp only [keyOf, WithBot.coe_inj] at hab
    rw [hab]

theorem batch_fold_db_eq (sut st : Int) :
    ∀ (items : List BatchItem) (acc : BatchAcc),
      ((items.foldl (processItem sut st) acc).db) =
        replayKeyDates acc.db
          (items.map fun it => it.completionLocalDate) sut st
  | [], acc => rfl
  | it :: rest, acc => by
    rw [List.foldl_cons, List.map_cons,
      show replayKeyDates acc.db (it.completionLocalDate ::
          rest.map fun i => i.completionLocalDate) sut st =
        replayKeyDates (recordDateDB sut st acc.db it.completionLocalDate)
          (rest.map fun i => i.completionLocalDate) sut st from rfl,
      ← processItem_db_eq]
    exact batch_fold_db_eq sut st rest (processItem sut st acc it)

theorem syncDB_sorted_replay (db : DB) (items : List BatchItem)
    (sut st : Int) (hsize : ¬ items.length > MAX_BATCH_SIZE) :
    syncDB db items sut st =
      replayKeyDates db ((List.insertionSort itemRel items).map
        fun it => it.completionLocalDate) sut st := by
  unfold syncDB validateOfflineCompletions
  rw [if_neg hsize]
  exact batch_fold_db_eq sut st (List.insertionSort itemRel items)
    ⟨db, [], 0, 0, 0, none⟩

theorem sorted_map_dates_eq (items items' : List BatchItem)
    (hperm : List.Perm (items.map fun it => it.completionLocalDate)
      (items'.map fun it => it.completionLocalDate)) :
    (List.insertionSort itemRel items).map
        (fun it => it.completionLocalDate) =
      (List.insertionSort itemRel items').map
        (fun it => it.completionLocalDate) := by
  haveI : IsAntisymm (Option Int) optLE :=
    ⟨fun a b hab hba => keyOf_injective (le_antisymm hab hba)⟩
  have hsorted : ∀ l : List BatchItem,
      List.Sorted optLE ((List.insertionSort itemRel l).map
        fun it => it.completionLocalDate) := by
    intro l
    rw [List.Sorted, List.pairwise_map]
    exact List.sorted_insertionSort itemRel l
  have hp : List.Perm
      ((List.insertionSort itemRel items).map
        fun it => it.completionLocalDate)
      ((List.insertionSort itemRel items').map
        fun it => it.completionLocalDate) := by
    refine List.Perm.trans ((List.perm_insertionSort itemRel items).map _)
      (List.Perm.trans hperm ?_)
    exact ((List.perm_insertionSort itemRel items').map _).symm
  exact List.eq_of_perm_of_sorted hp (hsorted items) (hsorted items')

-- ======================== C9 ========================

/-- C9: validate_offline_completions sorts its items ascending by
claimed local date and replays them sequentially through
record_completion, so a batch carrying the same multiset of dates in
any order produces the same final state; in particular the out-of-order
batch 2026-02-16, 2026-02-14, 2026-02-15 equals sequential in-order
recording of 14, 15, 16 and ends with currentStreak = longestStreak
= 3. -/
theorem batch_order_insensitive (db : DB) (items items' : List BatchItem)
    (sut st : Int) :
    (¬ items.length > MAX_BATCH_SIZE →
      syncDB db items sut st =
        replayKeyDates db ((List.insertionSort itemRel items).map
          fun it => it.completionLocalDate) sut st) ∧
    (List.Perm (items.map fun it => it.completionLocalDate)
        (items'.map fun it => it.completionLocalDate) →
      ¬ items.length > MAX_BATCH_SIZE →
      syncDB db items sut st = syncDB db items' sut st) ∧
    syncDB dbEmpty
        [⟨"a", some (rataDie 2026 2 16)⟩, ⟨"b", some (rataDie 2026 2 14)⟩,
         ⟨"c", some (rataDie 2026 2 15)⟩]
        (rataDie 2026 2 16) (rataDie 2026 2 16) =
      recordDB (recordDB (recordDB dbEmpty
            (rataDie 2026 2 14) (rataDie 2026 2 16) (rataDie 2026 2 16))
          (rataDie 2026 2 15) (rataDie 2026 2 16) (rataDie 2026 2 16))
        (rataDie 2026 2 16) (rataDie 2026 2 16) (rataDie 2026 2 16) ∧
    (profileView (syncDB dbEmpty
        [⟨"a", some (rataDie 2026 2 16)⟩, ⟨"b", some (rataDie 2026 2 14)⟩,
         ⟨"c", some (rataDie 2026 2 15)⟩]
        (rataDie 2026 2 16) (rataDie 2026 2 16))).currentStreak = 3 ∧
    (profileView (syncDB dbEmpty
        [⟨"a", some (rataDie 2026 2 16)⟩, ⟨"b", some (rataDie 2026 2 14)⟩,
         ⟨"c", some (rataDie 2026 2 15)⟩]
        (rataDie 2026 2 16) (rataDie 2026 2 16))).longestStreak = 3 := by
  refine ⟨syncDB_sorted_replay db items sut st, ?_, by decide, by decide,
    by decide⟩
  intro hperm hsize
  have hlen : items'.length = items.length := by
    have h1 := hperm.length_eq
    rw [List.length_map, List.length_map] at h1
    omega
  rw [syncDB_sorted_replay db items sut st hsize,
    syncDB_sorted_replay db items' sut st (by omega),
    sorted_map_dates_eq items items' hperm]

/-- Witness for C9: a two-item batch and its swapped ordering end in
the same state. -/
theorem batch_order_insensitive_witness :
    syncDB dbEmpty [⟨"x", some 5⟩, ⟨"y", some 4⟩] 5 5 =
      syncDB dbEmpty [⟨"y", some 4⟩, ⟨"x", some 5⟩] 5 5 :=
  (batch_order_insensitive dbEmpty [⟨"x", some 5⟩, ⟨"y", some 4⟩]
      [⟨"y", some 4⟩, ⟨"x", some 5⟩] 5 5).2.1
    (by decide) (by decide)

end Streak
